import Mathlib

/-!
Verification development for the futbolito-mvp streaming commentary pipeline.

The Python sources under `backend/src/video_analysis/` are shallowly embedded:
pure helpers become Lean functions on `ℚ` (Python floats are modelled as
rationals, with Python's floor-division/modulo semantics made explicit), the
stateful stages become explicit state-passing functions, and external calls
(Gemini, ElevenLabs, ffmpeg) are modelled by lists of per-call outcomes that
the embedded control flow consumes.

Time strings: the code renders times with `seconds_to_time` ("HH:MM:SS") and
reads them back with `parse_time_to_seconds`.  A rendered time string is
captured as its three colon-separated numeric fields (structure `HMS`); the
zero padding of the rendering does not affect `int()`-parsing, so the three
fields carry the full content of the string.
-/

/-- Three numeric fields of a rendered `HH:MM:SS` time string.  `h` is an
integer because Python's `int(seconds // 3600)` can be negative for negative
inputs; the minute and second fields produced by `seconds_to_time` are always
non-negative because they come from Python's non-negative `%` remainders. -/
structure HMS where
  h : ℤ
  m : ℕ
  s : ℕ
deriving DecidableEq

/-- Embedding of `seconds_to_time` (`video/time_utils.py`, lines 48-71):
`hours = int(seconds // 3600)`, `remaining = seconds % 3600`,
`minutes = int(remaining // 60)`, `secs = int(remaining % 60)`, rendered as
`HH:MM:SS`.  Python `//` is floor division and `%` the matching remainder;
`int()` applied to the non-negative remainders is the floor. -/
def seconds_to_time (x : ℚ) : HMS :=
  let hours : ℤ := ⌊x / 3600⌋
  let remaining : ℚ := x - 3600 * hours
  let minutes : ℤ := ⌊remaining / 60⌋
  let secs : ℤ := ⌊remaining - 60 * minutes⌋
  ⟨hours, minutes.toNat, secs.toNat⟩

/-- Embedding of `parse_time_to_seconds` (`video/time_utils.py`, lines 8-45)
on a three-field `HH:MM:SS` string: `h * 3600 + m * 60 + s`. -/
def parse_time_to_seconds (t : HMS) : ℚ :=
  t.h * 3600 + t.m * 60 + t.s

/-- The remainder `x - 3600 * ⌊x / 3600⌋` is non-negative. -/
theorem remaining_nonneg (x : ℚ) : 0 ≤ x - 3600 * ⌊x / 3600⌋ := by
  have h := Int.floor_le (x / 3600)
  nlinarith

/-- Rendering a time and parsing it back yields the floor of the input:
`parse_time_to_seconds (seconds_to_time x) = ⌊x⌋` (for every rational `x`). -/
theorem parse_seconds_to_time_eq_floor (x : ℚ) :
    parse_time_to_seconds (seconds_to_time x) = (⌊x⌋ : ℚ) := by
  unfold parse_time_to_seconds seconds_to_time
  set h : ℤ := ⌊x / 3600⌋ with hh
  set r : ℚ := x - 3600 * h with hr
  have h0r : 0 ≤ r := remaining_nonneg x
  set m : ℤ := ⌊r / 60⌋ with hm
  have h0m : 0 ≤ m := Int.floor_nonneg.mpr (by positivity)
  have h0s : 0 ≤ r - 60 * m := by
    have := Int.floor_le (r / 60)
    nlinarith
  have hsfl : ⌊r - 60 * (m : ℚ)⌋ = ⌊r⌋ - 60 * m := by
    have := Int.floor_sub_int r (60 * m)
    push_cast at this
    exact this
  have hrfl : ⌊r⌋ = ⌊x⌋ - 3600 * h := by
    have := Int.floor_sub_int x (3600 * h)
    push_cast at this
    rw [hr]
    exact this
  have hsnn : 0 ≤ ⌊r - 60 * (m : ℚ)⌋ := Int.floor_nonneg.mpr h0s
  have hmq : ((m.toNat : ℕ) : ℚ) = (m : ℚ) := by
    exact_mod_cast Int.toNat_of_nonneg h0m
  have hsq : ((⌊r - 60 * (m : ℚ)⌋.toNat : ℕ) : ℚ) = (⌊r - 60 * (m : ℚ)⌋ : ℚ) := by
    exact_mod_cast Int.toNat_of_nonneg hsnn
  rw [hmq, hsq, hsfl, hrfl]
  push_cast
  ring

/-- C10: for every non-negative rational `x`,
`parse_time_to_seconds (seconds_to_time x) = ⌊x⌋`: `seconds_to_time`
truncates fractional seconds when formatting to `HH:MM:SS`, so the
round-trip is the identity exactly on non-negative whole-second values and
any fractional part is lost in the string representation. -/
theorem c10_time_roundtrip (x : ℚ) (hx : 0 ≤ x) :
    parse_time_to_seconds (seconds_to_time x) = (⌊x⌋ : ℚ) ∧
    (parse_time_to_seconds (seconds_to_time x) = x ↔ ∃ n : ℕ, x = n) := by
  refine ⟨parse_seconds_to_time_eq_floor x, ?_⟩
  rw [parse_seconds_to_time_eq_floor x]
  constructor
  · intro hfe
    refine ⟨⌊x⌋.toNat, ?_⟩
    rw [← hfe]
    exact_mod_cast (Int.toNat_of_nonneg (Int.floor_nonneg.mpr hx)).symm
  · rintro ⟨n, rfl⟩
    simp

/-- Witness for `c10_time_roundtrip` at `x = 7/2`. -/
theorem c10_time_roundtrip_witness :
    (0 : ℚ) ≤ 7/2 ∧
    (parse_time_to_seconds (seconds_to_time (7/2)) = (⌊(7/2 : ℚ)⌋ : ℚ) ∧
     (parse_time_to_seconds (seconds_to_time (7/2)) = 7/2 ↔ ∃ n : ℕ, (7/2 : ℚ) = n)) :=
  ⟨by norm_num, c10_time_roundtrip (7/2) (by norm_num)⟩

/-! ## Event-timestamp offset correction (C3)

`EventDetector.detect_events_for_interval`
(`analysis/event_detector.py`, lines 176-194) post-processes every raw event
timestamp returned by the Detection collaborator with
`event.time = seconds_to_time(parse_time_to_seconds(event.time) + interval_start)`:
the clip-relative offset is added unconditionally.  A raw timestamp is carried
as its parsed rational value. -/

/-- Post-processing of raw event timestamps in `detect_events_for_interval`:
each raw time (in seconds) gets `interval_start` added and is re-rendered
through `seconds_to_time`; the stored value is the parse of that rendering. -/
def detect_events_postprocess (interval_start : ℚ) (raw_times : List ℚ) : List ℚ :=
  raw_times.map (fun t => parse_time_to_seconds (seconds_to_time (t + interval_start)))

/-- Modelled from the spec: the §4.2 offset-correction policy
`absolute = segment.startSec + clamp(raw, 0, segmentDuration)`, with the
plausibility escape: a raw timestamp already inside
`[segment.startSec, segment.endSec]` is used unmodified. -/
def spec_offset_correction (startSec endSec raw : ℚ) : ℚ :=
  if startSec ≤ raw ∧ raw ≤ endSec then raw
  else startSec + min (max raw 0) (endSec - startSec)

/-- C3 counterexample: for the segment `[30, 60]` and raw timestamp `45`
(already plausible as an absolute time inside the segment), the code stores
`30 + 45 = 75`, while the claimed policy keeps `45` unmodified; the stored
value even lies outside the segment. -/
theorem c3_counterexample :
    detect_events_postprocess 30 [45] = [75] ∧
    spec_offset_correction 30 60 45 = 45 ∧
    (75 : ℚ) ≠ 45 ∧ ¬ (75 : ℚ) ≤ 60 := by
  refine ⟨?_, by norm_num [spec_offset_correction], by norm_num, by norm_num⟩
  simp only [detect_events_postprocess, List.map]
  rw [parse_seconds_to_time_eq_floor]
  norm_num [Int.floor_eq_iff]

/-- C3 amended: the stored absolute time is `⌊segment.startSec + raw⌋`,
unconditionally — the clip-relative offset is always added, with no clamping
to `[0, segmentDuration]`, no plausibility check against
`[segment.startSec, segment.endSec]`, and fractional seconds truncated by the
`HH:MM:SS` re-rendering. -/
theorem c3_offset_always_added (interval_start : ℚ) (raw_times : List ℚ) :
    detect_events_postprocess interval_start raw_times =
      raw_times.map (fun t => (⌊t + interval_start⌋ : ℚ)) := by
  unfold detect_events_postprocess
  exact List.map_congr_left fun t _ => parse_seconds_to_time_eq_floor _

/-! ## RateLimiter (C6)

`RateLimiter.wait_if_needed` (`utils/rate_limiter.py`, lines 44-77) guards
calls with a minimum spacing of `60 / requests_per_minute + safety_buffer`
seconds.  Wall-clock time is passed explicitly: `now` is the value of
`time.time()` on entry, and when the call sleeps, the post-sleep
`time.time()` is modelled as `now + sleep_time`.  The mutex is modelled by
the calls forming a sequence, each running atomically on the state. -/

/-- Mutable state of `RateLimiter`: `last_request_time` (None before the
first call). -/
structure RLState where
  last_request_time : Option ℚ
deriving DecidableEq

/-- Embedding of `RateLimiter.wait_if_needed`: returns the sleep time and the
updated state.  First call records `now` and returns `0`; a subsequent call
sleeps `required_delay - elapsed` when `elapsed < required_delay` and records
the post-sleep clock, otherwise records `now` and returns `0`. -/
def wait_if_needed (requests_per_minute safety_buffer : ℚ) (st : RLState) (now : ℚ) :
    ℚ × RLState :=
  match st.last_request_time with
  | none => (0, ⟨some now⟩)
  | some t =>
    let elapsed := now - t
    let required_delay := 60 / requests_per_minute + safety_buffer
    if elapsed < required_delay then
      let sleep_time := required_delay - elapsed
      (sleep_time, ⟨some (now + sleep_time)⟩)
    else
      (0, ⟨some now⟩)

/-- Run a sequence of calls through the rate limiter; for each call, record
the sleep time returned and the `last_request_time` written by that call. -/
def runRateLimiter (R B : ℚ) : RLState → List ℚ → List (ℚ × ℚ)
  | _, [] => []
  | st, now :: rest =>
    let r := wait_if_needed R B st now
    (r.1, (r.2.last_request_time).getD now) :: runRateLimiter R B r.2 rest

/-- Recorded `last_request_time` values of a call sequence. -/
def recordedTimes (R B : ℚ) (st : RLState) (ts : List ℚ) : List ℚ :=
  (runRateLimiter R B st ts).map Prod.snd

/-- Starting from a recorded time `t0`, every later recorded time is at least
`60 / R + B` after its predecessor. -/
theorem recordedTimes_chain (R B : ℚ) :
    ∀ (ts : List ℚ) (t0 : ℚ),
      List.Chain (fun a b : ℚ => a + (60 / R + B) ≤ b) t0
        (recordedTimes R B ⟨some t0⟩ ts)
  | [], _ => List.Chain.nil
  | now :: rest, t0 => by
    simp only [recordedTimes, runRateLimiter, wait_if_needed, List.map]
    by_cases hlt : now - t0 < 60 / R + B
    · rw [if_pos hlt]
      simp only [Option.getD_some]
      refine List.Chain.cons (le_of_eq (by ring)) ?_
      have := recordedTimes_chain R B rest (now + (60 / R + B - (now - t0)))
      simpa [recordedTimes] using this
    · rw [if_neg hlt]
      simp only [Option.getD_some]
      refine List.Chain.cons (by linarith [not_lt.mp hlt]) ?_
      have := recordedTimes_chain R B rest now
      simpa [recordedTimes] using this

/-- C6: the first `wait_if_needed` call never waits (sleep `0`) and records
the call time; every subsequent call's recorded `last_request_time` is at
least `60 / R + B` seconds after the previously recorded one (the call either
finds that much time already elapsed, or sleeps exactly the difference).
Concurrent callers are serialised by the mutex, modelled here by the calls
forming a sequence that updates the state atomically. -/
theorem c6_rate_limiter (R B : ℚ) (hR : 0 < R) (hB : 0 ≤ B)
    (now : ℚ) (rest : List ℚ) :
    (runRateLimiter R B ⟨none⟩ (now :: rest)).head? = some (0, now) ∧
    List.Chain' (fun a b : ℚ => a + (60 / R + B) ≤ b)
      (recordedTimes R B ⟨none⟩ (now :: rest)) := by
  have hstep : recordedTimes R B ⟨none⟩ (now :: rest)
      = now :: recordedTimes R B ⟨some now⟩ rest := by
    simp [recordedTimes, runRateLimiter, wait_if_needed]
  refine ⟨by simp [runRateLimiter, wait_if_needed], ?_⟩
  rw [hstep]
  show List.Chain _ now (recordedTimes R B ⟨some now⟩ rest)
  exact recordedTimes_chain R B rest now

/-- Witness for `c6_rate_limiter`: three calls at clock times 0, 1 and 20
with `R = 10` requests per minute and buffer `B = 1/2`. -/
theorem c6_rate_limiter_witness :
    (runRateLimiter 10 (1/2) ⟨none⟩ (0 :: [1, 20])).head? = some (0, 0) ∧
    List.Chain' (fun a b : ℚ => a + (60 / 10 + 1/2) ≤ b)
      (recordedTimes 10 (1/2) ⟨none⟩ (0 :: [1, 20])) :=
  c6_rate_limiter 10 (1/2) (by norm_num) (by norm_num) 0 [1, 20]

/-! ## Gemini retry policy (C7)

`CommentaryGenerator._call_gemini_api_with_retry`
(`commentary/commentary_generator.py`, lines 124-151) is decorated with
tenacity `retry(retry=retry_if_exception_type(ResourceExhausted),
wait=wait_exponential(multiplier=2, min=4, max=60), stop=stop_after_attempt(5))`;
its own docstring: "Implements exponential backoff: 4s -> 8s -> 16s -> 32s ->
60s.  Max 5 attempts before giving up."  The underlying call is modelled by
the list of its per-attempt outcomes. -/

/-- Outcome of one underlying Gemini call: `ResourceExhausted`, any other
exception, or a successful response text. -/
inductive GeminiOutcome where
  | quota : GeminiOutcome
  | failure : GeminiOutcome
  | ok : String → GeminiOutcome
deriving DecidableEq

/-- Result of the retry-wrapped call: success, quota exhaustion after the
attempt cap, or an immediately propagated non-quota exception. -/
inductive RetryResult where
  | ok : String → RetryResult
  | quotaExhausted : RetryResult
  | failure : RetryResult
deriving DecidableEq

/-- tenacity `wait_exponential(multiplier=2, min=4, max=60)`: the delay slept
after failed attempt `n` (1-based) is `clamp(2 * 2^n, 4, 60)`, giving the
sequence 4, 8, 16, 32, 60, 60, ... -/
def backoff_delay (n : ℕ) : ℚ := max 4 (min (2 * 2 ^ n) 60)

/-- Embedding of `_call_gemini_api_with_retry`: `attempt` is the 1-based
attempt number; on `ResourceExhausted` before the 5th attempt the call is
retried after `backoff_delay attempt` seconds, on the 5th attempt it gives
up; any other exception propagates immediately; a successful response is
returned.  The second component collects the backoff delays slept. -/
def call_gemini_api_with_retry : ℕ → List GeminiOutcome → RetryResult × List ℚ
  | _, [] => (.quotaExhausted, [])
  | _, .ok s :: _ => (.ok s, [])
  | _, .failure :: _ => (.failure, [])
  | attempt, .quota :: rest =>
    if attempt < 5 then
      let r := call_gemini_api_with_retry (attempt + 1) rest
      (r.1, backoff_delay attempt :: r.2)
    else (.quotaExhausted, [])

/-- Each backoff delay is between the 4-second base and the 60-second cap. -/
theorem backoff_delay_bounds (n : ℕ) : 4 ≤ backoff_delay n ∧ backoff_delay n ≤ 60 := by
  unfold backoff_delay
  constructor
  · exact le_max_left _ _
  · exact max_le (by norm_num) (min_le_right _ _)

/-- Backoff delays are non-decreasing in the attempt number. -/
theorem backoff_delay_mono {a b : ℕ} (h : a ≤ b) : backoff_delay a ≤ backoff_delay b := by
  unfold backoff_delay
  have hp : (2 : ℚ) * 2 ^ a ≤ 2 * 2 ^ b := by
    have := pow_le_pow_right (a := (2 : ℚ)) (by norm_num) h
    linarith
  exact max_le_max le_rfl (min_le_min hp le_rfl)

/-- The delays slept by the retry wrapper are `backoff_delay` at consecutive
attempt numbers starting from the current one, with at most `5 - attempt`
retries. -/
theorem call_gemini_delays_spec :
    ∀ (outcomes : List GeminiOutcome) (a : ℕ),
      ∃ k, (call_gemini_api_with_retry a outcomes).2
          = (List.range k).map (fun i => backoff_delay (a + i)) ∧ (k = 0 ∨ a + k ≤ 5)
  | [], _ => ⟨0, by simp [call_gemini_api_with_retry]⟩
  | o :: rest, a => by
    match o with
    | .ok s => exact ⟨0, by simp [call_gemini_api_with_retry]⟩
    | .failure => exact ⟨0, by simp [call_gemini_api_with_retry]⟩
    | .quota =>
      by_cases ha : a < 5
      · obtain ⟨k, hk, hb⟩ := call_gemini_delays_spec rest (a + 1)
        refine ⟨k + 1, ?_, Or.inr (by omega)⟩
        simp only [call_gemini_api_with_retry, if_pos ha, hk,
          List.range_succ_eq_map, List.map_cons, List.map_map]
        refine congrArg₂ _ (by simp) (List.map_congr_left fun i _ => ?_)
        simp [Function.comp, Nat.add_comm, Nat.add_assoc, Nat.add_left_comm]
      · exact ⟨0, by simp [call_gemini_api_with_retry, if_neg ha]⟩

/-- A non-quota exception after `k` quota failures propagates immediately,
with exactly the `k` backoff delays already slept. -/
theorem call_gemini_failure_propagates :
    ∀ (k a : ℕ), a + k ≤ 5 → ∀ rest : List GeminiOutcome,
      call_gemini_api_with_retry a (List.replicate k .quota ++ .failure :: rest)
        = (.failure, (List.range k).map (fun i => backoff_delay (a + i)))
  | 0, a, _, rest => by simp [call_gemini_api_with_retry]
  | k + 1, a, h, rest => by
    have ha : a < 5 := by omega
    have ih := call_gemini_failure_propagates k (a + 1) (by omega) rest
    rw [List.replicate_succ, List.cons_append]
    simp only [call_gemini_api_with_retry, if_pos ha, ih,
      List.range_succ_eq_map, List.map_cons, List.map_map]
    refine congrArg₂ _ rfl (congrArg₂ _ (by simp) (List.map_congr_left fun i _ => ?_))
    simp [Function.comp, Nat.add_comm, Nat.add_assoc, Nat.add_left_comm]

/-- C7: the retry wrapper retries only on the quota-exhausted error class with
exponential backoff (base 4 s, cap 60 s, at most 5 attempts = 4 retries):
a call failing with a quota error 4 times then succeeding is retried exactly
4 times with the non-decreasing delays 4, 8, 16, 32 and returns the success
result; a non-quota exception after `k ≤ 4` quota failures propagates
immediately with exactly `k` delays slept; every run sleeps at most 4 delays,
each in `[4, 60]`, in non-decreasing order; five quota failures exhaust the
attempt cap. -/
theorem c7_retry_policy :
    (∀ s : String,
      call_gemini_api_with_retry 1 [.quota, .quota, .quota, .quota, .ok s]
        = (.ok s, [4, 8, 16, 32])) ∧
    (∀ (k : ℕ), k ≤ 4 → ∀ rest : List GeminiOutcome,
      call_gemini_api_with_retry 1 (List.replicate k .quota ++ .failure :: rest)
        = (.failure, (List.range k).map (fun i => backoff_delay (1 + i)))) ∧
    (∀ outcomes : List GeminiOutcome,
      (call_gemini_api_with_retry 1 outcomes).2.length ≤ 4) ∧
    (∀ outcomes : List GeminiOutcome,
      List.Chain' (· ≤ ·) (call_gemini_api_with_retry 1 outcomes).2 ∧
      ∀ d ∈ (call_gemini_api_with_retry 1 outcomes).2, 4 ≤ d ∧ d ≤ 60) ∧
    (∀ rest : List GeminiOutcome,
      call_gemini_api_with_retry 1 (List.replicate 5 .quota ++ rest)
        = (.quotaExhausted, [4, 8, 16, 32])) := by
  refine ⟨?_, ?_, ?_, ?_, ?_⟩
  · intro s
    simp only [call_gemini_api_with_retry, backoff_delay]
    norm_num [min_def, max_def]
  · intro k hk rest
    exact call_gemini_failure_propagates k 1 (by omega) rest
  · intro outcomes
    obtain ⟨k, hk, hb⟩ := call_gemini_delays_spec outcomes 1
    rw [hk, List.length_map, List.length_range]
    omega
  · intro outcomes
    obtain ⟨k, hk, _⟩ := call_gemini_delays_spec outcomes 1
    rw [hk]
    constructor
    · rw [List.chain'_map]
      cases k with
      | zero => simp
      | succ n =>
        rw [List.chain'_range_succ]
        intro m _
        exact backoff_delay_mono (by omega)
    · intro d hd
      obtain ⟨i, _, rfl⟩ := List.mem_map.mp hd
      exact backoff_delay_bounds _
  · intro rest
    simp only [List.replicate_succ, List.replicate_zero, List.cons_append,
      List.nil_append, call_gemini_api_with_retry, backoff_delay]
    norm_num [min_def, max_def]

/-- Witness for `c7_retry_policy`: one quota failure then a non-quota
exception; the exception propagates with the single 4-second delay slept. -/
theorem c7_retry_policy_witness :
    call_gemini_api_with_retry 1 (List.replicate 1 .quota ++ .failure :: [])
      = (.failure, (List.range 1).map (fun i => backoff_delay (1 + i))) :=
  c7_retry_policy.2.1 1 (by norm_num) []

/-! ## Commentary text and word-budget validation (C5)

`validate_commentary_duration` (`video/time_utils.py`, lines 74-121) caps a
commentary text at `int(duration * 2.5)` words.  A text is modelled by its
list of words (the result of Python `str.split()`: maximal whitespace-free
runs), each word a list of characters; the time-string fields are carried as
their parsed rational values. -/

/-- One word of a commentary text. -/
abbrev Word := List Char

/-- A commentary dictionary: `start_time`, `end_time` (parsed values of the
`HH:MM:SS` strings), `commentary` (the split words of the text), `speaker`. -/
structure Commentary where
  start_time : ℚ
  end_time : ℚ
  commentary : List Word
  speaker : String
deriving DecidableEq

/-- Python `int()` on a float: truncation toward zero. -/
def pyint (x : ℚ) : ℤ := if 0 ≤ x then ⌊x⌋ else ⌈x⌉

/-- Python slicing `ws[:n]` with a possibly negative bound. -/
def pyTake (ws : List Word) (n : ℤ) : List Word :=
  if 0 ≤ n then ws.take n.toNat else ws.take ((ws.length : ℤ) + n).toNat

/-- Cut a word just after the last occurrence of `c` in it. -/
def cutWordAtLast (w : Word) (c : Char) : Word :=
  w.take (w.length - w.reverse.indexOf c)

/-- Cut a word list at the last occurrence of `c` in the space-joined text:
keep the words before the last word containing `c`, cut that word after its
last `c`, drop everything after.  Mirrors `truncated.rsplit(punct, 1)[0] +
punct` on the joined text. -/
def cutAtLastChar : List Word → Char → List Word
  | [], _ => []
  | w :: rest, c =>
    if rest.any (fun u => u.contains c) then w :: cutAtLastChar rest c
    else if w.contains c then [cutWordAtLast w c]
    else []

/-- The sentence-ending punctuation marks tried by the truncation loop, in
source order: `for punct in ['.', '!', '?']`. -/
def sentencePuncts : List Char := ['.', '!', '?']

/-- Embedding of the per-element body of `validate_commentary_duration`:
`max_words = int(duration * 2.5)`; a text with more words is cut to the first
`max_words` words and then, for the FIRST of `'.'`, `'!'`, `'?'` present in
the cut text, re-cut at that character's last occurrence; only the
`commentary` field is modified. -/
def validate_one_commentary (c : Commentary) : Commentary :=
  let duration := c.end_time - c.start_time
  let max_words : ℤ := pyint (duration * (5/2))
  if (c.commentary.length : ℤ) > max_words then
    let truncated := pyTake c.commentary max_words
    let truncated2 :=
      match sentencePuncts.find? (fun p => truncated.any (fun w => w.contains p)) with
      | some p => cutAtLastChar truncated p
      | none => truncated
    { c with commentary := truncated2 }
  else c

/-- Embedding of `validate_commentary_duration` (`video/time_utils.py`,
lines 74-121): the per-element validation applied to every commentary. -/
def validate_commentary_duration (cs : List Commentary) : List Commentary :=
  cs.map validate_one_commentary

/-- Modelled from the spec: cutting a word after the last sentence-ending
punctuation mark it contains. -/
def spec_cut_word (w : Word) : Word :=
  w.take (w.length - w.reverse.findIdx (fun ch => sentencePuncts.contains ch))

/-- Modelled from the spec: truncation "at the last sentence boundary that
fits within the budget" — the budget-cut text is re-cut at the last
occurrence of ANY of `'.'`, `'!'`, `'?'` in the joined text. -/
def spec_truncate_last_sentence : List Word → List Word
  | [] => []
  | w :: rest =>
    if rest.any (fun u => sentencePuncts.any (fun p => u.contains p)) then
      w :: spec_truncate_last_sentence rest
    else if sentencePuncts.any (fun p => w.contains p) then [spec_cut_word w]
    else []

/-- Cutting at a character never lengthens the word list. -/
theorem cutAtLastChar_length_le : ∀ (ws : List Word) (c : Char),
    (cutAtLastChar ws c).length ≤ ws.length
  | [], _ => le_rfl
  | w :: rest, c => by
    simp only [cutAtLastChar]
    split
    · simpa using cutAtLastChar_length_le rest c
    · split <;> simp

/-- `validate_one_commentary` touches only the `commentary` field. -/
theorem validate_one_commentary_fields (c : Commentary) :
    (validate_one_commentary c).start_time = c.start_time ∧
    (validate_one_commentary c).end_time = c.end_time ∧
    (validate_one_commentary c).speaker = c.speaker := by
  simp only [validate_one_commentary]
  split <;> simp

/-- C5 counterexample: the commentary `"Nice. Go! a b c d"` (6 words) on a
2-second window has a 5-word budget; the last sentence boundary inside the
budget prefix `"Nice. Go! a b c"` is after `"Go!"`, but the code prefers
`'.'` over a later `'!'` and cuts at `"Nice."`. -/
theorem c5_counterexample :
    ((validate_commentary_duration
        [⟨0, 2, [['N','i','c','e','.'], ['G','o','!'], ['a'], ['b'], ['c'], ['d']],
          "COMMENTATOR_1"⟩]).map Commentary.commentary
      = [[['N','i','c','e','.']]]) ∧
    spec_truncate_last_sentence
        (pyTake [['N','i','c','e','.'], ['G','o','!'], ['a'], ['b'], ['c'], ['d']] 5)
      = [['N','i','c','e','.'], ['G','o','!']] ∧
    [[['N','i','c','e','.']]] ≠ [[['N','i','c','e','.'], ['G','o','!']]] := by
  refine ⟨?_, by decide, by decide⟩
  have hpy : pyint (((2 : ℚ) - 0) * (5/2)) = 5 := by
    norm_num [pyint, Int.floor_eq_iff]
  simp only [validate_commentary_duration, List.map, validate_one_commentary, hpy]
  norm_num
  decide

/-- The truncation branch keeps at most `n` words (for `0 ≤ n`). -/
theorem truncation_length_le (ws : List Word) (n : ℤ) (hn : 0 ≤ n) :
    (((match sentencePuncts.find? (fun p => (pyTake ws n).any (fun w => w.contains p)) with
      | some p => cutAtLastChar (pyTake ws n) p
      | none => pyTake ws n) : List Word).length : ℤ) ≤ n := by
  have htake : ((pyTake ws n).length : ℤ) ≤ n := by
    unfold pyTake
    rw [if_pos hn]
    calc ((ws.take n.toNat).length : ℤ) ≤ (n.toNat : ℤ) := by
          exact_mod_cast List.length_take_le n.toNat ws
      _ = n := Int.toNat_of_nonneg hn
  cases hf : sentencePuncts.find? (fun p => (pyTake ws n).any (fun w => w.contains p)) with
  | none => simpa using htake
  | some p =>
    simp only
    calc ((cutAtLastChar (pyTake ws n) p).length : ℤ)
        ≤ ((pyTake ws n).length : ℤ) := by
          exact_mod_cast cutAtLastChar_length_le (pyTake ws n) p
      _ ≤ n := htake

/-- After validation a commentary has at most `int(duration * 2.5)` words. -/
theorem validate_one_commentary_budget (c : Commentary)
    (hd : c.start_time ≤ c.end_time) :
    ((validate_one_commentary c).commentary.length : ℤ)
      ≤ pyint ((c.end_time - c.start_time) * (5/2)) := by
  have h0 : (0 : ℚ) ≤ (c.end_time - c.start_time) * (5/2) := by
    have : (0 : ℚ) ≤ c.end_time - c.start_time := by linarith
    nlinarith
  have hnn : 0 ≤ pyint ((c.end_time - c.start_time) * (5/2)) := by
    unfold pyint
    rw [if_pos h0]
    exact Int.floor_nonneg.mpr h0
  simp only [validate_one_commentary]
  split
  · exact truncation_length_le c.commentary _ hnn
  · omega

/-- C5 amended: after duration validation every commentary's word count is at
most `int(duration * 2.5)` — Python truncation, hence at most the claimed
`ceil(duration * 2.5)` — provided `startSec ≤ endSec`, and only the
`commentary` field of any element is modified.  (A text over the budget is
cut to the first `int(duration * 2.5)` words and then re-cut at the last
`'.'` of that prefix if one exists, else the last `'!'`, else the last `'?'`,
else left at the plain word cut — not necessarily at the LAST sentence
boundary that fits.) -/
theorem c5_word_budget (cs : List Commentary)
    (hd : ∀ c ∈ cs, c.start_time ≤ c.end_time) :
    (∀ cv ∈ validate_commentary_duration cs,
      (cv.commentary.length : ℤ) ≤ pyint ((cv.end_time - cv.start_time) * (5/2)) ∧
      pyint ((cv.end_time - cv.start_time) * (5/2))
        ≤ ⌈(cv.end_time - cv.start_time) * (5/2)⌉) ∧
    (validate_commentary_duration cs).map Commentary.start_time
      = cs.map Commentary.start_time ∧
    (validate_commentary_duration cs).map Commentary.end_time
      = cs.map Commentary.end_time ∧
    (validate_commentary_duration cs).map Commentary.speaker
      = cs.map Commentary.speaker := by
  refine ⟨?_, ?_, ?_, ?_⟩
  · intro cv hcv
    obtain ⟨c, hc, rfl⟩ := List.mem_map.mp hcv
    obtain ⟨hs, he, _⟩ := validate_one_commentary_fields c
    rw [hs, he]
    refine ⟨validate_one_commentary_budget c (hd c hc), ?_⟩
    unfold pyint
    split
    · exact Int.floor_le_ceil _
    · exact le_rfl
  · rw [validate_commentary_duration, List.map_map]
    exact List.map_congr_left fun c _ => (validate_one_commentary_fields c).1
  · rw [validate_commentary_duration, List.map_map]
    exact List.map_congr_left fun c _ => (validate_one_commentary_fields c).2.1
  · rw [validate_commentary_duration, List.map_map]
    exact List.map_congr_left fun c _ => (validate_one_commentary_fields c).2.2

/-- Witness for `c5_word_budget`: a single 2-word commentary on `[0, 2]`. -/
theorem c5_word_budget_witness :
    (∀ cv ∈ validate_commentary_duration [⟨0, 2, [['h','i'], ['a']], "COMMENTATOR_1"⟩],
      (cv.commentary.length : ℤ) ≤ pyint ((cv.end_time - cv.start_time) * (5/2)) ∧
      pyint ((cv.end_time - cv.start_time) * (5/2))
        ≤ ⌈(cv.end_time - cv.start_time) * (5/2)⌉) ∧
    (validate_commentary_duration [⟨0, 2, [['h','i'], ['a']], "COMMENTATOR_1"⟩]).map
        Commentary.start_time
      = [Commentary.mk 0 2 [['h','i'], ['a']] "COMMENTATOR_1"].map Commentary.start_time ∧
    (validate_commentary_duration [⟨0, 2, [['h','i'], ['a']], "COMMENTATOR_1"⟩]).map
        Commentary.end_time
      = [Commentary.mk 0 2 [['h','i'], ['a']] "COMMENTATOR_1"].map Commentary.end_time ∧
    (validate_commentary_duration [⟨0, 2, [['h','i'], ['a']], "COMMENTATOR_1"⟩]).map
        Commentary.speaker
      = [Commentary.mk 0 2 [['h','i'], ['a']] "COMMENTATOR_1"].map Commentary.speaker :=
  c5_word_budget [⟨0, 2, [['h','i'], ['a']], "COMMENTATOR_1"⟩]
    (by
      intro c hc
      rw [List.mem_singleton] at hc
      subst hc
      norm_num)

/-! ## Dual-commentary gap validation (C4)

`CommentaryGenerator._validate_dual_commentary`
(`commentary/commentary_generator.py`, lines 287-350) walks the list keeping
`validated`; for each segment after the first it compares
`parse_time_to_seconds(commentary['start_time'])` with the previous
validated `end_time`, shifts the start forward on a gap below
`MIN_GAP = 0.5`, and trims durations above `MAX_DURATION = 20`; gap-above-
`MAX_GAP` and duration-below-`MIN_DURATION` violations only log.  Every
adjusted time is written back through `seconds_to_time`, i.e. truncated to
whole seconds. -/

/-- Truncation to whole seconds suffered by any time value written back
through `seconds_to_time` and re-parsed. -/
def timeTrunc (x : ℚ) : ℚ := parse_time_to_seconds (seconds_to_time x)

/-- One iteration of the `_validate_dual_commentary` loop. -/
def validate_dual_step (validated : List Commentary) (c : Commentary) : List Commentary :=
  match validated.getLast? with
  | none => [c]
  | some prev =>
    let gap := c.start_time - prev.end_time
    let c1 :=
      if gap < 1/2 then { c with start_time := timeTrunc (prev.end_time + 1/2) } else c
    let c2 :=
      if c1.end_time - c1.start_time > 20 then
        { c1 with end_time := timeTrunc (c1.start_time + 20) }
      else c1
    validated ++ [c2]

/-- Embedding of `_validate_dual_commentary`: fold of the loop body over the
input list, starting from an empty `validated` list. -/
def validate_dual_commentary (cs : List Commentary) : List Commentary :=
  cs.foldl validate_dual_step []

/-- C4 failing input: two back-to-back whole-second segments `[0,10]` and
`[10,20]` (gap `0 < MIN_GAP = 0.5`).  The code computes the shifted start
`prev_end + 0.5 = 10.5` but `seconds_to_time` truncates it back to `10`
on write-back, so the validated output still has gap `0`:
`endSec[0] + minGap ≤ startSec[1]` fails even though the shift branch ran. -/
theorem c4_min_gap_violated :
    validate_dual_commentary
        [⟨0, 10, [], "COMMENTATOR_1"⟩, ⟨10, 20, [], "COMMENTATOR_2"⟩]
      = [⟨0, 10, [], "COMMENTATOR_1"⟩, ⟨10, 20, [], "COMMENTATOR_2"⟩] ∧
    ¬ ((10 : ℚ) + 1/2 ≤ 10) := by
  constructor
  · have ht : timeTrunc ((21 : ℚ)/2) = 10 := by
      unfold timeTrunc
      rw [parse_seconds_to_time_eq_floor]
      norm_num [Int.floor_eq_iff]
    simp only [validate_dual_commentary, List.foldl, validate_dual_step]
    norm_num [ht]
  · norm_num

/-! ## TTS generation and per-item failure handling (C9)

`TTSGenerator.generate_audio` (`audio/tts_generator.py`, lines 97-142) loops
`for attempt in range(max_retries)` (default 3) over the ElevenLabs call.  An
exception's message is classified by substring tests:
`is_quota_error = 'quota' in msg or '401' in msg`,
`is_rate_limit = 'rate' in msg or '429' in msg`, plus a `'timeout'` test.
A message is carried as the three Boolean results of those tests. -/

/-- Classification flags of a TTS exception message. -/
structure TTSErrFlags where
  is_quota_error : Bool
  is_rate_limit : Bool
  has_timeout : Bool
deriving DecidableEq

/-- One attempt's outcome of the ElevenLabs call: base64 audio, or an
exception with its classification flags. -/
inductive TTSOutcome where
  | ok : String → TTSOutcome
  | err : TTSErrFlags → TTSOutcome
deriving DecidableEq

/-- Embedding of the `generate_audio` retry loop from 0-based attempt number
`attempt`, with parameters `max_retries = 3`, `retry_delay = 2.0`.  Returns
the base64 audio (`""` on every failure path, as the source returns `""`
rather than raising) and the list of backoff sleeps performed.  A quota error
returns `""` immediately ("Don't retry quota errors"); a rate-limit or
timeout error before the last attempt sleeps `retry_delay * 2^attempt` and
retries; any other error returns `""` immediately. -/
def generate_audio_from (max_retries : ℕ) (retry_delay : ℚ) :
    ℕ → List TTSOutcome → String × List ℚ
  | _, [] => ("", [])
  | _, .ok audio :: _ => (audio, [])
  | attempt, .err e :: rest =>
    if e.is_quota_error then ("", [])
    else if attempt + 1 < max_retries ∧ (e.is_rate_limit = true ∨ e.has_timeout = true) then
      let r := generate_audio_from max_retries retry_delay (attempt + 1) rest
      (r.1, retry_delay * 2 ^ attempt :: r.2)
    else ("", [])

/-- `TTSGenerator.generate_audio` with its default parameters. -/
def generate_audio (outcomes : List TTSOutcome) : String × List ℚ :=
  generate_audio_from 3 2 0 outcomes

/-- Python truthiness of the optional `audio_base64` value (`None` and the
empty string are falsy). -/
def audioTruthy : Option String → Bool
  | none => false
  | some s => s != ""

/-- The overlay branch condition of `_create_single_chunk`
(`streaming_pipeline.py`, lines 780-831): `if commentary and audio_base64:` —
the chunk gets the speech overlay only when a commentary is present and the
audio is truthy; in the other branch the chunk is still produced from the
video alone (no overlay). -/
def chunk_has_overlay (commentary : Option Commentary) (audio_base64 : Option String) : Bool :=
  commentary.isSome && audioTruthy audio_base64

/-- The TTS loop performs at most `3 - 1 - attempt` retries from `attempt`. -/
theorem generate_audio_from_retries_le :
    ∀ (outcomes : List TTSOutcome) (a : ℕ),
      (generate_audio_from 3 2 a outcomes).2.length ≤ 2 - a
  | [], _ => by simp [generate_audio_from]
  | .ok s :: rest, a => by simp [generate_audio_from]
  | .err e :: rest, a => by
    simp only [generate_audio_from]
    split
    · simp
    · split
      · rename_i hcond
        have ih := generate_audio_from_retries_le rest (a + 1)
        simp only [List.length_cons]
        omega
      · simp

/-- C9 counterexample: a first attempt failing with a quota error is NOT
retried — the loop returns empty audio immediately (comment in source:
"Don't retry quota errors"), so the success on the would-be second attempt is
never seen, contradicting the claim that quota errors are retryable. -/
theorem c9_counterexample :
    generate_audio [.err ⟨true, false, false⟩, .ok "AUDIO"] = ("", []) ∧
    ("" : String) ≠ "AUDIO" := by
  constructor
  · rfl
  · decide

/-- C9 amended: rate-limit and timeout errors are retried with exponential
backoff `2 * 2^attempt` seconds, at most 3 attempts in total; quota errors
return empty audio IMMEDIATELY with no retry; any other error also fails the
item immediately; every failure path returns empty audio instead of raising,
and the chunk is still produced without an overlay, since empty audio is
falsy in the overlay condition of `_create_single_chunk`. -/
theorem c9_tts_failure_policy :
    (∀ (e : TTSErrFlags) (rest : List TTSOutcome), e.is_quota_error = true →
      generate_audio (.err e :: rest) = ("", [])) ∧
    (∀ (e : TTSErrFlags) (rest : List TTSOutcome), e.is_quota_error = false →
      (e.is_rate_limit = true ∨ e.has_timeout = true) →
      generate_audio (.err e :: rest)
        = ((generate_audio_from 3 2 1 rest).1, 2 :: (generate_audio_from 3 2 1 rest).2)) ∧
    (∀ (e : TTSErrFlags) (rest : List TTSOutcome), e.is_quota_error = false →
      e.is_rate_limit = false → e.has_timeout = false →
      generate_audio (.err e :: rest) = ("", [])) ∧
    (∀ (s : String) (rest : List TTSOutcome), generate_audio (.ok s :: rest) = (s, [])) ∧
    (∀ outcomes : List TTSOutcome, (generate_audio outcomes).2.length ≤ 2) ∧
    (∀ c : Option Commentary, chunk_has_overlay c (some "") = false ∧
      chunk_has_overlay c none = false) := by
  refine ⟨?_, ?_, ?_, ?_, ?_, ?_⟩
  · intro e rest hq
    simp [generate_audio, generate_audio_from, hq]
  · intro e rest hq hr
    simp only [generate_audio, generate_audio_from, hq, Bool.false_eq_true, if_false]
    rw [if_pos ⟨by omega, hr⟩]
    norm_num
  · intro e rest hq hr ht
    simp [generate_audio, generate_audio_from, hq, hr, ht]
  · intro s rest
    simp [generate_audio, generate_audio_from]
  · intro outcomes
    exact generate_audio_from_retries_le outcomes 0
  · intro c
    constructor
    · simp [chunk_has_overlay, audioTruthy]
    · simp [chunk_has_overlay, audioTruthy]

/-- Witness for `c9_tts_failure_policy`: a rate-limit failure then success is
retried once with a 2-second sleep and returns the success audio. -/
theorem c9_tts_failure_policy_witness :
    generate_audio (.err ⟨false, true, false⟩ :: [.ok "AUDIO"])
      = ((generate_audio_from 3 2 1 [.ok "AUDIO"]).1,
         2 :: (generate_audio_from 3 2 1 [.ok "AUDIO"]).2) :=
  c9_tts_failure_policy.2.1 ⟨false, true, false⟩ [.ok "AUDIO"] rfl (Or.inl rfl)

/-! ## Detection rolling window and the time-analyzed watermark (C8)

`EventDetector.detect_events_rolling_window` (`analysis/event_detector.py`,
lines 305-425) processes pre-split clips in order; per clip it (1) calls
`detect_events_for_interval`, (2) sorts the accumulated events and persists
`events.json` (`_save_events`), and (3) strictly afterwards persists the
watermark (`_set_time_analyzed(clip.end_time)`).  A failing first clip
raises (Logic A, no writes); a later failing clip is skipped (Logic B),
keeping the previous watermark.  An event is carried as its absolute time; a
clip as its `end_time` plus the detection outcome (`none` = the call
raised).  Every persisted write yields one observable state; readers
(`StateManager.get_time_analyzed` / `update_time_analyzed`,
`state_manager.py` lines 101-120, serialised by the state lock) see exactly
the states of this trace. -/

/-- Observable persisted state: saved events and the watermark. -/
structure DetState where
  saved_events : List ℚ
  time_analyzed : ℚ
deriving DecidableEq

/-- A pre-split clip: its absolute end time and its detection outcome. -/
structure Clip where
  end_time : ℚ
  events : Option (List ℚ)

/-- `_save_events`: the accumulated events are sorted chronologically before
being persisted. -/
def save_events (evs : List ℚ) : List ℚ :=
  evs.mergeSort (fun a b => decide (a ≤ b))

/-- Logic B loop over the remaining clips: per successful clip, first the
state with the new events and the OLD watermark (events.json written), then
the state with the advanced watermark. -/
def detect_rolling_loop : List ℚ → ℚ → List Clip → List DetState
  | _, _, [] => []
  | acc, wm, c :: rest =>
    match c.events with
    | none => detect_rolling_loop acc wm rest
    | some evs =>
      let acc2 := acc ++ evs
      ⟨save_events acc2, wm⟩ :: ⟨save_events acc2, c.end_time⟩ ::
        detect_rolling_loop acc2 c.end_time rest

/-- `detect_events_rolling_window`: Logic A handles the first clip (a failure
raises before any write), Logic B loops over the rest; the initial watermark
is `0` (fresh session).  Returns the trace of observable states in order. -/
def detect_events_rolling_window (clips : List Clip) : List DetState :=
  match clips with
  | [] => []
  | c :: rest =>
    match c.events with
    | none => []
    | some evs =>
      ⟨save_events evs, 0⟩ :: ⟨save_events evs, c.end_time⟩ ::
        detect_rolling_loop evs c.end_time rest

/-- Sorting preserves membership. -/
theorem mem_save_events {e : ℚ} {evs : List ℚ} : e ∈ save_events evs ↔ e ∈ evs :=
  List.mem_mergeSort

/-- Events accumulated before the loop stay in every later persisted state. -/
theorem detect_rolling_loop_acc_mem :
    ∀ (clips : List Clip) (acc : List ℚ) (wm : ℚ),
      ∀ st ∈ detect_rolling_loop acc wm clips, ∀ e ∈ acc, e ∈ st.saved_events
  | [], _, _ => by simp [detect_rolling_loop]
  | c :: rest, acc, wm => by
    cases hc : c.events with
    | none =>
      intro st hst e he
      simp only [detect_rolling_loop, hc] at hst
      exact detect_rolling_loop_acc_mem rest acc wm st hst e he
    | some evs =>
      intro st hst e he
      simp only [detect_rolling_loop, hc, List.mem_cons] at hst
      rcases hst with rfl | rfl | hst
      · exact mem_save_events.mpr (List.mem_append_left _ he)
      · exact mem_save_events.mpr (List.mem_append_left _ he)
      · exact detect_rolling_loop_acc_mem rest (acc ++ evs) c.end_time st hst e
          (List.mem_append_left _ he)

/-- Safety for the loop: at every observable state, any successful clip whose
end time the watermark has reached has all its events persisted; requires the
watermark to start below all upcoming end times and the end times to be
strictly increasing. -/
theorem detect_rolling_loop_safety :
    ∀ (clips : List Clip) (acc : List ℚ) (wm : ℚ),
      (∀ c ∈ clips, wm < c.end_time) →
      List.Pairwise (fun a b : Clip => a.end_time < b.end_time) clips →
      ∀ st ∈ detect_rolling_loop acc wm clips,
        ∀ (k : ℕ) (hk : k < clips.length) (evs : List ℚ),
          (clips.get ⟨k, hk⟩).events = some evs →
          (clips.get ⟨k, hk⟩).end_time ≤ st.time_analyzed →
          ∀ e ∈ evs, e ∈ st.saved_events
  | [], _, _, _, _ => by simp [detect_rolling_loop]
  | c :: rest, acc, wm, hwm, hmono => by
    intro st hst k hk evs hevs hle e he
    obtain ⟨hhead, htail⟩ := List.pairwise_cons.mp hmono
    cases hc : c.events with
    | none =>
      simp only [detect_rolling_loop, hc] at hst
      match k with
      | 0 =>
        rw [List.get] at hevs
        rw [hc] at hevs
        exact absurd hevs (by simp)
      | k + 1 =>
        exact detect_rolling_loop_safety rest acc wm
          (fun d hd => hwm d (List.mem_cons_of_mem _ hd)) htail
          st hst k (by simpa using hk) evs hevs hle e he
    | some evs0 =>
      simp only [detect_rolling_loop, hc, List.mem_cons] at hst
      rcases hst with rfl | rfl | hst
      · exact absurd hle
          (not_le.mpr (hwm _ (List.get_mem (c :: rest) k hk)))
      · match k with
        | 0 =>
          rw [List.get] at hevs
          rw [hc] at hevs
          cases hevs
          exact mem_save_events.mpr (List.mem_append_right _ he)
        | k + 1 =>
          exfalso
          have hk2 : k < rest.length := by simpa using hk
          have hlt := hhead (rest.get ⟨k, hk2⟩) (List.get_mem rest k hk2)
          rw [List.get] at hle
          exact absurd hle (not_le.mpr hlt)
      · match k with
        | 0 =>
          rw [List.get] at hevs
          rw [hc] at hevs
          cases hevs
          exact detect_rolling_loop_acc_mem rest (acc ++ evs) c.end_time st hst e
            (List.mem_append_right _ he)
        | k + 1 =>
          rw [List.get] at hevs hle
          exact detect_rolling_loop_safety rest (acc ++ evs0) c.end_time
            (fun d hd => hhead d hd) htail
            st hst k (by simpa using hk) evs hevs hle e he

/-- Progress for the loop: every successful clip contributes a state whose
watermark equals the clip's end time and whose persisted events include the
clip's events. -/
theorem detect_rolling_loop_progress :
    ∀ (clips : List Clip) (acc : List ℚ) (wm : ℚ)
      (k : ℕ) (hk : k < clips.length) (evs : List ℚ),
      (clips.get ⟨k, hk⟩).events = some evs →
      ∃ st ∈ detect_rolling_loop acc wm clips,
        st.time_analyzed = (clips.get ⟨k, hk⟩).end_time ∧
        ∀ e ∈ evs, e ∈ st.saved_events
  | [], _, _, k, hk, _ => by simp at hk
  | c :: rest, acc, wm, k, hk, evs => by
    intro hevs
    cases hc : c.events with
    | none =>
      match k with
      | 0 =>
        rw [List.get] at hevs
        rw [hc] at hevs
        exact absurd hevs (by simp)
      | k + 1 =>
        rw [List.get] at hevs
        obtain ⟨st, hst, hta, hmem⟩ :=
          detect_rolling_loop_progress rest acc wm k (by simpa using hk) evs hevs
        refine ⟨st, ?_, ?_, hmem⟩
        · simp only [detect_rolling_loop, hc]
          exact hst
        · rw [List.get]
          exact hta
    | some evs0 =>
      match k with
      | 0 =>
        rw [List.get] at hevs
        rw [hc] at hevs
        cases hevs
        refine ⟨⟨save_events (acc ++ evs), c.end_time⟩, ?_, ?_, ?_⟩
        · simp [detect_rolling_loop, hc]
        · rw [List.get]
        · intro e he
          exact mem_save_events.mpr (List.mem_append_right _ he)
      | k + 1 =>
        rw [List.get] at hevs
        obtain ⟨st, hst, hta, hmem⟩ :=
          detect_rolling_loop_progress rest (acc ++ evs0) c.end_time k
            (by simpa using hk) evs hevs
        refine ⟨st, ?_, ?_, hmem⟩
        · simp only [detect_rolling_loop, hc, List.mem_cons]
          exact Or.inr (Or.inr hst)
        · rw [List.get]
          exact hta

/-- When the first clip succeeds, the whole trace is the loop from an empty
accumulator and watermark `0`. -/
theorem rolling_window_eq_loop (c : Clip) (rest : List Clip) (evs0 : List ℚ)
    (hc : c.events = some evs0) :
    detect_events_rolling_window (c :: rest)
      = detect_rolling_loop [] 0 (c :: rest) := by
  simp [detect_events_rolling_window, detect_rolling_loop, hc]

/-- C8: write-then-advance.  For clips with positive, strictly increasing end
times: (1) no observable state has a watermark at or past the end of a
successfully detected segment without that segment's events already
persisted; (2) every successfully detected segment `k` (in a session whose
first segment succeeded) yields an observable state whose watermark equals
`segment[k].endSec` with the segment's events persisted. -/
theorem c8_watermark (clips : List Clip)
    (hmono : List.Pairwise (fun a b : Clip => a.end_time < b.end_time) clips)
    (hpos : ∀ c ∈ clips, 0 < c.end_time) :
    (∀ st ∈ detect_events_rolling_window clips,
      ∀ (k : ℕ) (hk : k < clips.length) (evs : List ℚ),
        (clips.get ⟨k, hk⟩).events = some evs →
        (clips.get ⟨k, hk⟩).end_time ≤ st.time_analyzed →
        ∀ e ∈ evs, e ∈ st.saved_events) ∧
    (∀ (c : Clip) (rest : List Clip), clips = c :: rest → c.events.isSome = true →
      ∀ (k : ℕ) (hk : k < clips.length) (evs : List ℚ),
        (clips.get ⟨k, hk⟩).events = some evs →
        ∃ st ∈ detect_events_rolling_window clips,
          st.time_analyzed = (clips.get ⟨k, hk⟩).end_time ∧
          ∀ e ∈ evs, e ∈ st.saved_events) := by
  constructor
  · intro st hst
    cases clips with
    | nil => simp [detect_events_rolling_window] at hst
    | cons c rest =>
      cases hc : c.events with
      | none =>
        simp only [detect_events_rolling_window, hc] at hst
        exact absurd hst (List.not_mem_nil st)
      | some evs0 =>
        rw [rolling_window_eq_loop c rest evs0 hc] at hst
        exact detect_rolling_loop_safety (c :: rest) [] 0 hpos hmono st hst
  · intro c rest hcl hsome k hk evs hevs
    subst hcl
    obtain ⟨evs0, hc⟩ := Option.isSome_iff_exists.mp hsome
    rw [rolling_window_eq_loop c rest evs0 hc]
    exact detect_rolling_loop_progress (c :: rest) [] 0 k hk evs hevs

/-- Witness for `c8_watermark`: a single 30-second clip with one event. -/
theorem c8_watermark_witness :
    (∀ st ∈ detect_events_rolling_window [⟨30, some [5]⟩],
      ∀ (k : ℕ) (hk : k < (([⟨30, some [5]⟩] : List Clip)).length) (evs : List ℚ),
        (([⟨30, some [5]⟩] : List Clip).get ⟨k, hk⟩).events = some evs →
        (([⟨30, some [5]⟩] : List Clip).get ⟨k, hk⟩).end_time ≤ st.time_analyzed →
        ∀ e ∈ evs, e ∈ st.saved_events) ∧
    (∀ (c : Clip) (rest : List Clip), ([⟨30, some [5]⟩] : List Clip) = c :: rest →
      c.events.isSome = true →
      ∀ (k : ℕ) (hk : k < (([⟨30, some [5]⟩] : List Clip)).length) (evs : List ℚ),
        (([⟨30, some [5]⟩] : List Clip).get ⟨k, hk⟩).events = some evs →
        ∃ st ∈ detect_events_rolling_window [⟨30, some [5]⟩],
          st.time_analyzed = (([⟨30, some [5]⟩] : List Clip).get ⟨k, hk⟩).end_time ∧
          ∀ e ∈ evs, e ∈ st.saved_events) :=
  c8_watermark [⟨30, some [5]⟩] (by simp)
    (by
      intro d hd
      rw [List.mem_singleton] at hd
      subst hd
      norm_num)

/-! ## Chunk creation with the reorder buffer (C1, C2)

`StreamingPipeline._create_video_chunks` (`streaming_pipeline.py`, lines
568-741) buffers out-of-order TTS completions in a min-heap keyed by the
commentary start time.  Between queue receipts it runs
`try_emit_next_chunk` to a fixpoint; once the queue is exhausted
(`audio_complete`) it can only keep draining, and with an empty buffer it
emits the trailing no-commentary chunk `[cursor, videoDuration)` provided
the tail is at least `0.1` s; a buffered item stranded more than `5` s ahead
of the cursor blocks the loop forever, so nothing further is emitted.  An
audio item is carried as the parsed start/end times of its commentary;
ffmpeg calls are assumed to succeed (their failure paths only skip the
bookkeeping of one chunk).  The heap is a list kept sorted by start time;
arrivals are handled in queue order, draining after every insert — exactly
the source's receive-then-drain loop, since a drain is a fixpoint. -/

/-- A buffered TTS completion: parsed start/end times of its commentary. -/
structure AudioItem where
  start_time : ℚ
  end_time : ℚ
deriving DecidableEq

/-- An emitted chunk `[startSec, endSec)`. -/
structure VideoChunk where
  startSec : ℚ
  endSec : ℚ
deriving DecidableEq

/-- `heapq.heappush`: insert keeping the list sorted ascending by start time
(stable for equal keys). -/
def heapPush : List AudioItem → AudioItem → List AudioItem
  | [], a => [a]
  | b :: rest, a =>
    if a.start_time < b.start_time then a :: b :: rest else b :: heapPush rest a

/-- `try_emit_next_chunk` run to a fixpoint: while the minimum buffered start
is within the 5-second tolerance of the cursor, pop it; a chunk shorter than
`0.1` s is skipped without emission or cursor movement; otherwise emit
`[cursor, min(end, videoDuration)]` and advance the cursor to its end. -/
def drainBuffer (D : ℚ) : List AudioItem → ℚ → List VideoChunk →
    List AudioItem × ℚ × List VideoChunk
  | [], cursor, chunks => ([], cursor, chunks)
  | a :: rest, cursor, chunks =>
    if a.start_time ≤ cursor + 5 then
      if a.end_time - cursor < 1/10 then drainBuffer D rest cursor chunks
      else
        let ce := if a.end_time > D then D else a.end_time
        drainBuffer D rest ce (chunks ++ [⟨cursor, ce⟩])
    else (a :: rest, cursor, chunks)

/-- The main receive loop: push each arrival into the buffer, then drain. -/
def muxFeed (D : ℚ) : List AudioItem × ℚ × List VideoChunk → List AudioItem →
    List AudioItem × ℚ × List VideoChunk
  | st, [] => st
  | (buf, cursor, chunks), a :: more =>
    muxFeed D (drainBuffer D (heapPush buf a) cursor chunks) more

/-- `_create_video_chunks` end to end: feed the arrivals from cursor `0`,
then the end-of-stream step — with an empty buffer the trailing chunk
`[cursor, D)` is emitted when `D - cursor ≥ 0.1`; with a non-empty (hence
stranded) buffer the loop never finishes and no trailing chunk is emitted.
Returns the emitted chunks and the leftover buffer. -/
def create_video_chunks (D : ℚ) (arrivals : List AudioItem) :
    List VideoChunk × List AudioItem :=
  match muxFeed D ([], 0, []) arrivals with
  | (buf, cursor, chunks) =>
    if buf = [] ∧ 1/10 ≤ D - cursor then (chunks ++ [⟨cursor, D⟩], buf)
    else (chunks, buf)

/-- `chunks` is a contiguous chain of chunks from boundary `s` to boundary
`e`, all inside `[s, D]`. -/
def ChunkChain (D : ℚ) : ℚ → List VideoChunk → ℚ → Prop
  | s, [], e => s = e
  | s, c :: cs, e => c.startSec = s ∧ s ≤ c.endSec ∧ c.endSec ≤ D ∧ ChunkChain D c.endSec cs e

/-- Appending one more chunk to a chain. -/
theorem ChunkChain.append_one (D : ℚ) :
    ∀ (l : List VideoChunk) (s e ce : ℚ), ChunkChain D s l e → e ≤ ce → ce ≤ D →
      ChunkChain D s (l ++ [⟨e, ce⟩]) ce
  | [], s, e, ce, h, h1, h2 => by
    cases h
    exact ⟨rfl, h1, h2, rfl⟩
  | c :: cs, s, e, ce, h, h1, h2 => by
    obtain ⟨hs, hse, hcd, hrest⟩ := h
    exact ⟨hs, hse, hcd, ChunkChain.append_one D cs c.endSec e ce hrest h1 h2⟩

/-- Draining preserves the chain and keeps the cursor within `[0, D]`. -/
theorem drainBuffer_chain (D : ℚ) :
    ∀ (buf : List AudioItem) (cursor : ℚ) (chunks : List VideoChunk) (s : ℚ),
      ChunkChain D s chunks cursor → cursor ≤ D →
      ChunkChain D s (drainBuffer D buf cursor chunks).2.2
          (drainBuffer D buf cursor chunks).2.1 ∧
        (drainBuffer D buf cursor chunks).2.1 ≤ D
  | [], cursor, chunks, s, hch, hcd => ⟨hch, hcd⟩
  | a :: rest, cursor, chunks, s, hch, hcd => by
    simp only [drainBuffer]
    split
    · split
      · exact drainBuffer_chain D rest cursor chunks s hch hcd
      · rename_i htol hlen
        have hle : cursor ≤ if a.end_time > D then D else a.end_time := by
          split
          · exact hcd
          · have := not_lt.mp hlen
            linarith
        have hDle : (if a.end_time > D then D else a.end_time) ≤ D := by
          split
          · exact le_rfl
          · rename_i hnd
            exact le_of_not_lt hnd
        exact drainBuffer_chain D rest _ _ s
          (ChunkChain.append_one D chunks s cursor _ hch hle hDle) hDle
    · exact ⟨hch, hcd⟩

/-- The receive loop preserves the chain and the cursor bound. -/
theorem muxFeed_chain (D : ℚ) :
    ∀ (arrivals buf : List AudioItem) (cursor : ℚ) (chunks : List VideoChunk) (s : ℚ),
      ChunkChain D s chunks cursor → cursor ≤ D →
      ChunkChain D s (muxFeed D (buf, cursor, chunks) arrivals).2.2
          (muxFeed D (buf, cursor, chunks) arrivals).2.1 ∧
        (muxFeed D (buf, cursor, chunks) arrivals).2.1 ≤ D
  | [], buf, cursor, chunks, s, hch, hcd => ⟨hch, hcd⟩
  | a :: more, buf, cursor, chunks, s, hch, hcd => by
    have hd := drainBuffer_chain D (heapPush buf a) cursor chunks s hch hcd
    rcases hdr : drainBuffer D (heapPush buf a) cursor chunks with ⟨buf2, cur2, ch2⟩
    rw [hdr] at hd
    simp only [muxFeed, hdr]
    exact muxFeed_chain D more buf2 cur2 ch2 s hd.1 hd.2

/-- The emitted chunks of `create_video_chunks` form a chain from `0` to a
final boundary `cf ≤ D`, and when the buffer drains empty, `cf` is either
`D` itself (trailing chunk emitted) or within `0.1` s of `D` (tail
dropped). -/
theorem create_video_chunks_chain (D : ℚ) (hD : 0 ≤ D) (arrivals : List AudioItem) :
    ∃ cf, ChunkChain D 0 (create_video_chunks D arrivals).1 cf ∧ cf ≤ D ∧
      ((create_video_chunks D arrivals).2 = [] → cf = D ∨ D - cf < 1/10) := by
  unfold create_video_chunks
  have h := muxFeed_chain D arrivals [] 0 [] 0 rfl hD
  rcases hm : muxFeed D ([], 0, []) arrivals with ⟨buf, cursor, chunks⟩
  rw [hm] at h
  obtain ⟨hch, hcd⟩ := h
  simp only at hch hcd ⊢
  split
  · rename_i hcond
    refine ⟨D, ?_, le_rfl, fun _ => Or.inl rfl⟩
    exact ChunkChain.append_one D chunks 0 cursor D hch (by linarith [hcond.2]) le_rfl
  · rename_i hcond
    refine ⟨cursor, hch, hcd, ?_⟩
    intro hbuf
    right
    have hnot := not_and.mp hcond hbuf
    linarith [lt_of_not_le hnot]

/-- Every chunk of a chain has `startSec ≤ endSec ≤ D`. -/
theorem ChunkChain.mem_bounds (D : ℚ) :
    ∀ (l : List VideoChunk) (s e : ℚ), ChunkChain D s l e →
      ∀ c ∈ l, c.startSec ≤ c.endSec ∧ c.endSec ≤ D
  | [], _, _, _ => by simp
  | c :: cs, s, e, h => by
    intro d hd
    obtain ⟨hs, hse, hcd, hrest⟩ := h
    rcases List.mem_cons.mp hd with rfl | hd
    · exact ⟨hs ▸ hse, hcd⟩
    · exact ChunkChain.mem_bounds D cs _ e hrest d hd

/-- Every chunk of a chain starts at or after the chain's first boundary. -/
theorem ChunkChain.start_ge (D : ℚ) :
    ∀ (l : List VideoChunk) (s e : ℚ), ChunkChain D s l e →
      ∀ (j : ℕ) (hj : j < l.length), s ≤ (l.get ⟨j, hj⟩).startSec
  | [], _, _, _, j, hj => by simp at hj
  | c :: cs, s, e, h, j, hj => by
    obtain ⟨hs, hse, hcd, hrest⟩ := h
    match j with
    | 0 => exact le_of_eq hs.symm
    | j + 1 =>
      have := ChunkChain.start_ge D cs c.endSec e hrest j (by simpa using hj)
      rw [List.get]
      exact le_trans hse this

/-- Consecutive chunks of a chain share their boundary. -/
theorem ChunkChain.adjacent (D : ℚ) :
    ∀ (l : List VideoChunk) (s e : ℚ), ChunkChain D s l e →
      ∀ (i : ℕ) (hi : i + 1 < l.length),
        (l.get ⟨i, by omega⟩).endSec = (l.get ⟨i + 1, hi⟩).startSec
  | [], _, _, _, i, hi => by simp at hi
  | c :: cs, s, e, h, i, hi => by
    obtain ⟨hs, hse, hcd, hrest⟩ := h
    match i with
    | 0 =>
      match cs, hrest with
      | c2 :: cs2, hrest => exact hrest.1.symm
    | i + 1 =>
      have := ChunkChain.adjacent D cs c.endSec e hrest i (by simpa using hi)
      rw [List.get, List.get]
      exact this

/-- A later chunk never starts before an earlier chunk's end. -/
theorem ChunkChain.mono (D : ℚ) :
    ∀ (l : List VideoChunk) (s e : ℚ), ChunkChain D s l e →
      ∀ (i j : ℕ) (hij : i < j) (hj : j < l.length),
        (l.get ⟨i, by omega⟩).endSec ≤ (l.get ⟨j, hj⟩).startSec
  | [], _, _, _, i, j, hij, hj => by simp at hj
  | c :: cs, s, e, h, i, j, hij, hj => by
    obtain ⟨hs, hse, hcd, hrest⟩ := h
    match i, j with
    | 0, j + 1 =>
      have := ChunkChain.start_ge D cs c.endSec e hrest j (by simpa using hj)
      rw [List.get]
      exact this
    | i + 1, j + 1 =>
      have := ChunkChain.mono D cs c.endSec e hrest i j (by omega) (by simpa using hj)
      rw [List.get, List.get]
      exact this

/-- The last boundary of a chain is its final value. -/
theorem ChunkChain.lastEnd (D : ℚ) :
    ∀ (l : List VideoChunk) (s e : ℚ), ChunkChain D s l e →
      (l.getLast?).elim s VideoChunk.endSec = e
  | [], s, e, h => h
  | [c], s, e, h => by
    obtain ⟨_, _, _, hrest⟩ := h
    exact hrest
  | c :: c2 :: cs, s, e, h => by
    obtain ⟨hs, hse, hcd, hrest⟩ := h
    rw [List.getLast?_cons_cons]
    exact ChunkChain.lastEnd D (c2 :: cs) c.endSec e hrest


/-- Unfolding equations of the mux loop, with the branch conditions as
hypotheses (used to evaluate concrete runs). -/
theorem drainBuffer_nil (D cursor : ℚ) (chunks : List VideoChunk) :
    drainBuffer D [] cursor chunks = ([], cursor, chunks) := rfl

/-- A buffered minimum beyond the 5-second tolerance stops the drain. -/
theorem drainBuffer_stop (D : ℚ) (a : AudioItem) (rest : List AudioItem)
    (cursor : ℚ) (chunks : List VideoChunk) (h1 : ¬ a.start_time ≤ cursor + 5) :
    drainBuffer D (a :: rest) cursor chunks = (a :: rest, cursor, chunks) := by
  simp only [drainBuffer]
  rw [if_neg h1]

/-- A popped item whose chunk would be shorter than `0.1` s is skipped. -/
theorem drainBuffer_skip (D : ℚ) (a : AudioItem) (rest : List AudioItem)
    (cursor : ℚ) (chunks : List VideoChunk) (h1 : a.start_time ≤ cursor + 5)
    (h2 : a.end_time - cursor < 1/10) :
    drainBuffer D (a :: rest) cursor chunks = drainBuffer D rest cursor chunks := by
  simp only [drainBuffer]
  rw [if_pos h1, if_pos h2]

/-- A popped item within tolerance and length emits its chunk (no clamping
needed when its end is within the video). -/
theorem drainBuffer_emit (D : ℚ) (a : AudioItem) (rest : List AudioItem)
    (cursor : ℚ) (chunks : List VideoChunk) (h1 : a.start_time ≤ cursor + 5)
    (h2 : ¬ a.end_time - cursor < 1/10) (h3 : ¬ a.end_time > D) :
    drainBuffer D (a :: rest) cursor chunks
      = drainBuffer D rest a.end_time (chunks ++ [⟨cursor, a.end_time⟩]) := by
  simp only [drainBuffer]
  rw [if_pos h1, if_neg h2, if_neg h3]

/-- One receive step of the loop. -/
theorem muxFeed_cons (D : ℚ) (buf : List AudioItem) (cursor : ℚ)
    (chunks : List VideoChunk) (a : AudioItem) (more : List AudioItem) :
    muxFeed D (buf, cursor, chunks) (a :: more)
      = muxFeed D (drainBuffer D (heapPush buf a) cursor chunks) more := rfl

/-- The end-of-stream step, given the state the feed loop reached. -/
theorem create_video_chunks_eq (D : ℚ) (arrivals buf : List AudioItem)
    (cursor : ℚ) (chunks : List VideoChunk)
    (hm : muxFeed D ([], 0, []) arrivals = (buf, cursor, chunks)) :
    create_video_chunks D arrivals
      = if buf = [] ∧ 1/10 ≤ D - cursor then (chunks ++ [⟨cursor, D⟩], buf)
        else (chunks, buf) := by
  unfold create_video_chunks
  rw [hm]

/-- C1 counterexample: a 10-second video with one commentary ending at
`9.95 s`.  The chunk `[0, 9.95]` is emitted and the buffer drains empty, but
the remaining tail `0.05 s` is below the `0.1 s` threshold, so no trailing
chunk is created: the last chunk's `endSec` is `9.95 ≠ 10 = videoDuration`,
leaving a gap at the end of the timeline. -/
theorem c1_counterexample :
    create_video_chunks 10 [⟨0, 199/20⟩] = ([⟨0, 199/20⟩], []) ∧
    (199/20 : ℚ) ≠ 10 := by
  constructor
  · have hm : muxFeed 10 ([], 0, []) [⟨0, 199/20⟩] = ([], 199/20, [⟨0, 199/20⟩]) := by
      rw [muxFeed_cons]
      show muxFeed 10 (drainBuffer 10 [⟨0, 199/20⟩] 0 []) [] = _
      rw [drainBuffer_emit 10 ⟨0, 199/20⟩ [] 0 [] (by norm_num) (by norm_num) (by norm_num),
        drainBuffer_nil]
      rfl
    rw [create_video_chunks_eq 10 _ _ _ _ hm, if_neg (by norm_num)]
  · norm_num

/-- C1 amended: for every arrival sequence, the emitted chunks start at `0`,
are contiguous (`chunk[i].endSec = chunk[i+1].startSec`) and satisfy
`startSec ≤ endSec ≤ videoDuration`; when the buffer drains empty the last
chunk's `endSec` equals `videoDuration` UNLESS the remaining tail is shorter
than `0.1` s, in which case the tail chunk is dropped (and a buffered item
stranded more than `5` s past the cursor blocks the trailing chunk
entirely). -/
theorem c1_chunk_coverage (D : ℚ) (hD : 0 ≤ D) (arrivals : List AudioItem) :
    (∀ c : VideoChunk,
      (create_video_chunks D arrivals).1.head? = some c → c.startSec = 0) ∧
    (∀ (i : ℕ) (hi : i + 1 < (create_video_chunks D arrivals).1.length),
      ((create_video_chunks D arrivals).1.get ⟨i, by omega⟩).endSec
        = ((create_video_chunks D arrivals).1.get ⟨i + 1, hi⟩).startSec) ∧
    (∀ c ∈ (create_video_chunks D arrivals).1,
      c.startSec ≤ c.endSec ∧ c.endSec ≤ D) ∧
    ((create_video_chunks D arrivals).2 = [] →
      ((create_video_chunks D arrivals).1.getLast?).elim 0 VideoChunk.endSec = D ∨
        D - ((create_video_chunks D arrivals).1.getLast?).elim 0 VideoChunk.endSec
          < 1/10) := by
  obtain ⟨cf, hch, hcd, hfin⟩ := create_video_chunks_chain D hD arrivals
  refine ⟨?_, ?_, ChunkChain.mem_bounds D _ _ _ hch, ?_⟩
  · intro c hc
    cases hl : (create_video_chunks D arrivals).1 with
    | nil => rw [hl] at hc; exact absurd hc (by simp)
    | cons c0 cs =>
      rw [hl] at hch hc
      rw [List.head?_cons, Option.some.injEq] at hc
      rw [← hc]
      exact hch.1
  · intro i hi
    exact ChunkChain.adjacent D _ _ _ hch i hi
  · intro hemp
    rw [ChunkChain.lastEnd D _ _ _ hch]
    exact hfin hemp

/-- Witness for `c1_chunk_coverage`: a 30-second video with two in-order
commentaries. -/
theorem c1_chunk_coverage_witness :
    (∀ c : VideoChunk,
      (create_video_chunks 30 [⟨0, 10⟩, ⟨12, 20⟩]).1.head? = some c → c.startSec = 0) ∧
    (∀ (i : ℕ) (hi : i + 1 < (create_video_chunks 30 [⟨0, 10⟩, ⟨12, 20⟩]).1.length),
      ((create_video_chunks 30 [⟨0, 10⟩, ⟨12, 20⟩]).1.get ⟨i, by omega⟩).endSec
        = ((create_video_chunks 30 [⟨0, 10⟩, ⟨12, 20⟩]).1.get ⟨i + 1, hi⟩).startSec) ∧
    (∀ c ∈ (create_video_chunks 30 [⟨0, 10⟩, ⟨12, 20⟩]).1,
      c.startSec ≤ c.endSec ∧ c.endSec ≤ 30) ∧
    ((create_video_chunks 30 [⟨0, 10⟩, ⟨12, 20⟩]).2 = [] →
      ((create_video_chunks 30 [⟨0, 10⟩, ⟨12, 20⟩]).1.getLast?).elim 0
          VideoChunk.endSec = 30 ∨
        (30 : ℚ) - ((create_video_chunks 30 [⟨0, 10⟩, ⟨12, 20⟩]).1.getLast?).elim 0
          VideoChunk.endSec < 1/10) :=
  c1_chunk_coverage 30 (by norm_num) [⟨0, 10⟩, ⟨12, 20⟩]

/-- Evaluation of the out-of-order example run: arrivals
`[10,20], [0,10], [20,30], [5,15]` (queue order) on a 35-second video emit
the chunks `[0,10], [10,20], [20,30], [30,35]` and drain the buffer empty:
the `[5,15]` completion is popped and skipped once the cursor is at `30`. -/
theorem mux_example_eval :
    create_video_chunks 35 [⟨10, 20⟩, ⟨0, 10⟩, ⟨20, 30⟩, ⟨5, 15⟩]
      = ([⟨0, 10⟩, ⟨10, 20⟩, ⟨20, 30⟩, ⟨30, 35⟩], []) := by
  have hp2 : heapPush [⟨10, 20⟩] ⟨0, 10⟩ = [⟨0, 10⟩, ⟨10, 20⟩] := by
    simp only [heapPush]
    rw [if_pos (by norm_num)]
  have hm : muxFeed 35 ([], 0, []) [⟨10, 20⟩, ⟨0, 10⟩, ⟨20, 30⟩, ⟨5, 15⟩]
      = ([], 30, [⟨0, 10⟩, ⟨10, 20⟩, ⟨20, 30⟩]) := by
    rw [muxFeed_cons]
    show muxFeed 35 (drainBuffer 35 [⟨10, 20⟩] 0 []) [⟨0, 10⟩, ⟨20, 30⟩, ⟨5, 15⟩] = _
    rw [drainBuffer_stop 35 ⟨10, 20⟩ [] 0 [] (by norm_num)]
    rw [muxFeed_cons, hp2]
    rw [drainBuffer_emit 35 ⟨0, 10⟩ [⟨10, 20⟩] 0 [] (by norm_num) (by norm_num) (by norm_num)]
    show muxFeed 35
      (drainBuffer 35 [⟨10, 20⟩] 10 [⟨0, 10⟩]) [⟨20, 30⟩, ⟨5, 15⟩] = _
    rw [drainBuffer_emit 35 ⟨10, 20⟩ [] 10 [⟨0, 10⟩] (by norm_num) (by norm_num) (by norm_num),
      drainBuffer_nil]
    rw [muxFeed_cons]
    show muxFeed 35
      (drainBuffer 35 [⟨20, 30⟩] 20 [⟨0, 10⟩, ⟨10, 20⟩]) [⟨5, 15⟩] = _
    rw [drainBuffer_emit 35 ⟨20, 30⟩ [] 20 [⟨0, 10⟩, ⟨10, 20⟩]
      (by norm_num) (by norm_num) (by norm_num), drainBuffer_nil]
    rw [muxFeed_cons]
    show muxFeed 35
      (drainBuffer 35 [⟨5, 15⟩] 30 [⟨0, 10⟩, ⟨10, 20⟩, ⟨20, 30⟩]) [] = _
    rw [drainBuffer_skip 35 ⟨5, 15⟩ [] 30 [⟨0, 10⟩, ⟨10, 20⟩, ⟨20, 30⟩]
      (by norm_num) (by norm_num), drainBuffer_nil]
    rfl
  rw [create_video_chunks_eq 35 _ _ _ _ hm, if_pos ⟨rfl, by norm_num⟩]
  rfl

/-- C2 counterexample: completions with start times `[10, 0, 20, 5]` arriving
in that order (commentaries `[10,20], [0,10], [20,30], [5,15]`, 35-second
video).  When `[5,15]` finally arrives the cursor has already advanced to
`30`, so the item is popped and skipped without emitting anything: the
emitted boundaries are `0, 10, 20, 30, 35` — no chunk boundary at `5`, so the
buffer does NOT release the four completions as the chunk boundaries
`0, 5, 10, 20` the claim requires. -/
theorem c2_counterexample :
    create_video_chunks 35 [⟨10, 20⟩, ⟨0, 10⟩, ⟨20, 30⟩, ⟨5, 15⟩]
      = ([⟨0, 10⟩, ⟨10, 20⟩, ⟨20, 30⟩, ⟨30, 35⟩], []) ∧
    (∀ c ∈ [(⟨0, 10⟩ : VideoChunk), ⟨10, 20⟩, ⟨20, 30⟩, ⟨30, 35⟩],
      c.startSec ≠ 5 ∧ c.endSec ≠ 5) := by
  constructor
  · exact mux_example_eval
  · intro c hc
    rcases List.mem_cons.mp hc with rfl | hc
    · constructor <;> norm_num
    rcases List.mem_cons.mp hc with rfl | hc
    · constructor <;> norm_num
    rcases List.mem_cons.mp hc with rfl | hc
    · constructor <;> norm_num
    rcases List.mem_cons.mp hc with rfl | hc
    · constructor <;> norm_num
    · exact absurd hc (by simp)

/-- C2 amended: the muxing stage always emits chunks in chronological order —
each chunk starts exactly at the previous chunk's end, so no chunk ever
starts before a previously emitted chunk's end, and the emitted boundaries
are non-decreasing; but an out-of-order completion arriving after the cursor
has passed its window is skipped entirely (no chunk), so the emitted
boundaries need not include every completion's start time. -/
theorem c2_chunk_order (D : ℚ) (hD : 0 ≤ D) (arrivals : List AudioItem) :
    ∀ (i j : ℕ) (hij : i < j) (hj : j < (create_video_chunks D arrivals).1.length),
      ((create_video_chunks D arrivals).1.get ⟨i, by omega⟩).endSec
        ≤ ((create_video_chunks D arrivals).1.get ⟨j, hj⟩).startSec := by
  obtain ⟨cf, hch, _, _⟩ := create_video_chunks_chain D hD arrivals
  exact ChunkChain.mono D _ _ _ hch

/-- Witness for `c2_chunk_order`: in the out-of-order example run, the first
emitted chunk's end does not exceed the second emitted chunk's start. -/
theorem c2_chunk_order_witness :
    ((create_video_chunks 35 [⟨10, 20⟩, ⟨0, 10⟩, ⟨20, 30⟩, ⟨5, 15⟩]).1.get
        ⟨0, by simp [mux_example_eval]⟩).endSec
      ≤ ((create_video_chunks 35 [⟨10, 20⟩, ⟨0, 10⟩, ⟨20, 30⟩, ⟨5, 15⟩]).1.get
        ⟨1, by simp [mux_example_eval]⟩).startSec :=
  c2_chunk_order 35 (by norm_num) [⟨10, 20⟩, ⟨0, 10⟩, ⟨20, 30⟩, ⟨5, 15⟩] 0 1
    (by norm_num) (by simp [mux_example_eval])
